import Mathlib

/-!
Verification of the depot workspace build orchestrator.

This file shallowly embeds the core of the repository: the dependency-graph
builder (`Workspace.buildDepGraph`), the root-set closure
(`Workspace.dependencyClosure`), the task scheduler (`Workspace.runPackages`,
both parallel and ordered modes) and the command driver (`Workspace.run`).
Packages are represented by their name and the key lists of the three
dependency maps of their manifest, since `buildDepGraph` only ever reads
`Object.keys` of those maps.  JavaScript `Set`s are represented by duplicate
free lists in insertion order (`Set.prototype.add` appends a missing element
and is a no-op on a present one), and the single-threaded event-loop
execution of the ordered scheduler is represented by a transition system
whose atomic step is one task-completion continuation (mark finished,
possibly reject or resolve the promise, then start every newly eligible
package), matching the microtask granularity of the source.
-/

namespace Depot

/-- Embedding of the fields of `Package` that `buildDepGraph` reads: the
package name and the dependency names from `manifest.dependencies`,
`manifest.devDependencies` and `manifest.peerDependencies` (the source only
uses `Object.keys` of these maps, so each map is embedded as its key list). -/
structure Package where
  name : String
  dependencies : List String
  devDependencies : List String
  peerDependencies : List String
deriving DecidableEq

/-- Scheduler task status, `"queued" | "running" | "finished"` in the source. -/
inductive Status where
  | queued
  | running
  | finished
deriving DecidableEq

/-- Events of an ordered-mode run: a package's task being started
(`status[pkg.name] = "running"` plus the `cmd.run!` call), or a package's
task completing (the continuation after `await cmd.run!(pkg)`). -/
inductive Event where
  | start (p : String)
  | finish (p : String)
deriving DecidableEq

/-- `Set.prototype.add`: append the element if it is not already present. -/
def addElem (s : List String) (x : String) : List String :=
  if x ∈ s then s else s ++ [x]

/-- `b.forEach(x => a.add(x))`: union the elements of `b` into the set `a`
(the `union` helper of `buildDepGraph`, minus its growth flag, which is
recovered from the length). -/
def unionInto (a b : List String) : List String :=
  b.foldl addElem a

/-- `new Set(l)`: the elements of `l` deduplicated in first-occurrence
order. -/
def mkSet (l : List String) : List String :=
  l.foldl addElem []

/-- JavaScript object-key insertion: assigning a fresh key appends it,
assigning to an existing key keeps its position. -/
def insertKey (ks : List String) (k : String) : List String :=
  if k ∈ ks then ks else ks ++ [k]

/-- `Object.keys` of `_.fromPairs(packages.map(pkg => [pkg.name, pkg]))`
(also the `rootSet` of `buildDepGraph`): the package names in
first-occurrence order. -/
def objKeys (ws : List Package) : List String :=
  ws.foldl (fun ks p => insertKey ks p.name) []

/-- Lookup in `pkgMap`: `_.fromPairs` assigns pairs in order, so a later
package with the same name overwrites an earlier one. -/
def pkgLookup (ws : List Package) (n : String) : Option Package :=
  ws.reverse.find? (fun p => p.name == n)

/-- `allVersionedDeps.map(deps => Object.keys(deps || {})).flat()`. -/
def declaredDeps (p : Package) : List String :=
  p.dependencies ++ p.devDependencies ++ p.peerDependencies

/-- The initial per-package entry of `depGraph`:
`new Set(allVersionedDeps...flat().filter(name => rootSet.has(name)))`. -/
def directDeps (ws : List Package) (n : String) : List String :=
  match pkgLookup ws n with
  | none => []
  | some p => mkSet ((declaredDeps p).filter (fun d => decide (d ∈ objKeys ws)))

/-- The graph before the fixpoint loop: workspace names map to their direct
internal dependencies, everything else to the empty set (absent key). -/
def initialGraph (ws : List Package) : String → List String :=
  fun n => if n ∈ objKeys ws then directDeps ws n else []

/-- Direct internal dependency relation: `b` is a declared in-workspace
dependency of `a`. -/
def depEdge (ws : List Package) (a b : String) : Prop :=
  b ∈ initialGraph ws a

instance (ws : List Package) (a b : String) : Decidable (depEdge ws a b) :=
  inferInstanceAs (Decidable (b ∈ initialGraph ws a))

/-- The body of `deps.forEach(dep => ...)` in `buildDepGraph`'s fixpoint
loop, folding over the snapshot list `deps = [...depGraph[name]]`: each step
unions `depGraph[dep]` into `depGraph[name]` in place. -/
def innerFold (name : String) (g : String → List String) (l : List String) :
    String → List String :=
  l.foldl (fun h d => Function.update h name (unionInto (h name) (h d))) g

/-- One iteration of the `Object.keys(depGraph).forEach(name => ...)` body:
union every current dependency's set into `name`'s set. -/
def passStep (g : String → List String) (name : String) : String → List String :=
  innerFold name g (g name)

/-- One full pass of the `while (true)` loop in `buildDepGraph`. -/
def pass (ws : List Package) (g : String → List String) : String → List String :=
  (objKeys ws).foldl passStep g

/-- Total number of stored dependency entries; the fixpoint loop's `changed`
flag is true exactly when a pass increases this (every `union` call either
grows `a` or leaves it untouched, so `changed` holds iff some entry grew). -/
def totalSize (ws : List Package) (g : String → List String) : ℕ :=
  ((objKeys ws).map (fun k => (g k).length)).sum

/-- The `while (true) { ...; if (!changed) break; }` loop, with enough fuel
to reach the fixpoint (each changed pass strictly grows `totalSize`, which
is bounded by `n * n`). -/
def loopFuel (ws : List Package) : ℕ → (String → List String) → (String → List String)
  | 0, g => g
  | f + 1, g =>
    let g' := pass ws g
    if totalSize ws g' = totalSize ws g then g' else loopFuel ws f g'

/-- Fuel sufficient for the fixpoint loop of `buildDepGraph`. -/
def graphFuel (ws : List Package) : ℕ :=
  (objKeys ws).length * (objKeys ws).length + 1

/-- `Workspace.buildDepGraph`: direct internal dependencies closed under the
fixpoint iteration.  Names that are not workspace packages map to `[]`
(no entry in the returned object). -/
def buildDepGraph (ws : List Package) : String → List String :=
  loopFuel ws (graphFuel ws) (initialGraph ws)

/-- One pass of `dependencyClosure`'s loop: `[...depsSet].forEach(p =>
this.depGraph[p].forEach(p2 => depsSet.add(p2)))` — the snapshot is the
current set, additions accumulate. -/
def closureStep (G : String → List String) (s : List String) : List String :=
  s.foldl (fun acc p => unionInto acc (G p)) s

/-- The `while (true)` loop of `dependencyClosure`, terminating when the set
size stops growing, with enough fuel to reach that fixpoint. -/
def closureFuel (G : String → List String) : ℕ → List String → List String
  | 0, s => s
  | f + 1, s =>
    let s' := closureStep G s
    if s'.length = s.length then s' else closureFuel G f s'

/-- `new Set(roots.map(pkg => pkg.name))`. -/
def rootNames (roots : List Package) : List String :=
  mkSet (roots.map (fun p => p.name))

/-- `Workspace.dependencyClosure`, as the list of names it computes (the
source then maps the names back to package objects through `pkgMap`). -/
def dependencyClosure (ws : List Package) (roots : List Package) : List String :=
  closureFuel (buildDepGraph ws) (roots.length + (objKeys ws).length + 1) (rootNames roots)

/-- Ordered-scheduler state: the `status` table, the settlement of the
`Promise` (`none` = pending, `some false` = rejected, `some true` =
resolved), and the chronological event trace. -/
structure SState where
  status : String → Status
  settled : Option Bool
  trace : List Event

/-- `canExecute()`: the queued packages of the run set whose every
dependency-graph entry is `finished`. -/
def canExecute (names : List String) (G : String → List String)
    (st : String → Status) : List String :=
  names.filter (fun p =>
    decide (st p = Status.queued ∧ ∀ d ∈ G p, st d = Status.finished))

/-- `runTasks()` up to the suspension points: every currently eligible
package transitions to `running` and its task is started.  (Each `forEach`
callback runs synchronously up to its first `await`, so the whole batch is
marked before any completion continuation runs.) -/
def startBatch (names : List String) (G : String → List String) (s : SState) : SState :=
  let b := canExecute names G s.status
  { status := b.foldl (fun f p => Function.update f p Status.running) s.status
    settled := s.settled
    trace := s.trace ++ b.map Event.start }

/-- The scheduler state after the promise executor's initial `runTasks()`
call, starting from the all-`queued` table built by `_.fromPairs`. -/
def initS (names : List String) (G : String → List String) : SState :=
  startBatch names G { status := fun _ => Status.queued, settled := none, trace := [] }

/-- The continuation after `await cmd.run!(pkg)` for package `p`: if the
task failed, `reject()` (settling the promise with failure if it is still
pending); mark `p` `finished` either way; if every status is `finished`,
`resolve()` (a no-op on an already settled promise); otherwise call
`runTasks()` again, which starts every newly eligible package — even when
the run was already rejected. -/
def stepComplete (names : List String) (G : String → List String)
    (run : String → Bool) (p : String) (s : SState) : SState :=
  let st' := Function.update s.status p Status.finished
  let settled1 := if s.settled = none ∧ run p = false then some false else s.settled
  let base : SState := { status := st', settled := settled1, trace := s.trace ++ [Event.finish p] }
  if names.all (fun q => decide (st' q = Status.finished)) then
    { base with settled := if settled1 = none then some true else settled1 }
  else
    startBatch names G base

/-- One scheduler transition: some running task's completion continuation
executes.  Task results are given by the pure function `run`. -/
def SchedStep (names : List String) (G : String → List String)
    (run : String → Bool) (s s' : SState) : Prop :=
  ∃ p, s.status p = Status.running ∧ s' = stepComplete names G run p s

/-- Reachability of a scheduler state in an ordered-mode run. -/
def Reach (names : List String) (G : String → List String)
    (run : String → Bool) (s : SState) : Prop :=
  Relation.ReflTransGen (SchedStep names G run) (initS names G) s

/-- The package-name list `runPackages` iterates over:
`this.dependencyClosure(only ?? this.packages)`. -/
def runPkgsList (ws : List Package) (only : Option (List Package)) : List String :=
  dependencyClosure ws (only.getD ws)

/-- Reachability of a scheduler state for `Workspace.runPackages` in ordered
mode on workspace `ws`, with per-package task results `run` and optional
`only` selection. -/
def ReachW (ws : List Package) (run : String → Bool)
    (only : Option (List Package)) (s : SState) : Prop :=
  Reach (runPkgsList ws only) (buildDepGraph ws) run s

/-- `Workspace.runPackages` in parallel mode:
`(await Promise.all(pkgs.map(pkg => cmd.run!(pkg)))).every(x => x)`. -/
def runPackagesPar (ws : List Package) (run : String → Bool)
    (only : Option (List Package)) : Bool :=
  ((runPkgsList ws only).map run).all (fun x => x)

/-- `Workspace.run`, abstracted over the settled outcome of the per-package
phase: `success = true`; if the command has a per-package run function,
`success = (await runPackages) && success`; if it has a workspace-level run
function, that function executes (the second component counts its
executions) and `success = (await runWorkspace) && success`. -/
def wsRunModel (hasRun : Bool) (pkgSuccess : Bool) (wsFn : Option Bool) : Bool × ℕ :=
  let success := if hasRun then pkgSuccess && true else true
  match wsFn with
  | some w => (w && success, 1)
  | none => (success, 0)

/-- Invariant of ordered-mode scheduler states: statuses outside the run set
never leave `queued`; a started package has all its graph dependencies
`finished`; the trace records exactly the starts and finishes implied by the
status table; every start event is preceded by finish events for all of the
package's dependencies; a resolved promise means every selected package
finished; and a finished package whose task failed implies the promise is
rejected. -/
structure Inv (names : List String) (G : String → List String)
    (run : String → Bool) (s : SState) : Prop where
  offList : ∀ p, p ∉ names → s.status p = Status.queued
  depsDone : ∀ p, s.status p ≠ Status.queued → ∀ d ∈ G p, s.status d = Status.finished
  startedTrace : ∀ p, Event.start p ∈ s.trace ↔ s.status p ≠ Status.queued
  finishTrace : ∀ p, Event.finish p ∈ s.trace ↔ s.status p = Status.finished
  ordered : ∀ t1 p t2, s.trace = t1 ++ Event.start p :: t2 → ∀ d ∈ G p, Event.finish d ∈ t1
  resolvedAll : s.settled = some true → ∀ q ∈ names, s.status q = Status.finished
  failRejected : ∀ p, s.status p = Status.finished → run p = false → s.settled = some false

/-- Two-package workspace in which `A` depends on `B`. -/
def wsLin : List Package := [⟨"A", ["B"], [], []⟩, ⟨"B", [], [], []⟩]

/-- `wsLin` with its package list reversed. -/
def wsLinR : List Package := [⟨"B", [], [], []⟩, ⟨"A", ["B"], [], []⟩]

/-- Workspace with a mutual dependency cycle between `A` and `B`. -/
def wsCyc : List Package := [⟨"A", ["B"], [], []⟩, ⟨"B", ["A"], [], []⟩]

/-- Workspace in which `B` depends on `A` (and `A`'s task will fail). -/
def wsFail : List Package := [⟨"A", [], [], []⟩, ⟨"B", ["A"], [], []⟩]

/-- Three-package dependency chain `A → B → C`. -/
def wsChain : List Package :=
  [⟨"A", ["B"], [], []⟩, ⟨"B", ["C"], [], []⟩, ⟨"C", [], [], []⟩]

/-- Workspace in which `A` declares an external (non-workspace) dependency. -/
def wsExt : List Package := [⟨"A", ["B", "ext"], [], []⟩, ⟨"B", [], [], []⟩]

/-- Two independent packages, for the parallel mode scenario. -/
def wsPar : List Package := [⟨"A", [], [], []⟩, ⟨"B", [], [], []⟩]

/-- Task results: every package succeeds. -/
def runAllOk : String → Bool := fun _ => true

/-- Task results: package `A` fails, everything else succeeds. -/
def runFailA : String → Bool := fun n => !(n == "A")

/-- Task results: `A` succeeds and `B` fails (the `(true, false)` scenario). -/
def runParRes : String → Bool := fun n => n == "A"

/-- Ordered run on `wsLin` after `B`'s task (the only initially eligible one)
completes: its trace is `[start B, finish B, start A]`. -/
def sLin1 : SState :=
  stepComplete (runPkgsList wsLin none) (buildDepGraph wsLin) runAllOk "B"
    (initS (runPkgsList wsLin none) (buildDepGraph wsLin))

/-- Ordered run on `wsFail` after `A`'s task completes with failure: the
promise is rejected, yet `A` is marked `finished` and `B` — whose only
dependency is the failed `A` — is started by the ensuing `runTasks()`. -/
def sFail1 : SState :=
  stepComplete (runPkgsList wsFail none) (buildDepGraph wsFail) runFailA "A"
    (initS (runPkgsList wsFail none) (buildDepGraph wsFail))

theorem mem_addElem {s : List String} {x y : String} :
    x ∈ addElem s y ↔ x ∈ s ∨ x = y := by
  unfold addElem
  split
  · constructor
    · exact Or.inl
    · rintro (h | rfl) <;> assumption
  · simp [or_comm]

theorem addElem_eq_append (s : List String) (y : String) :
    ∃ t, addElem s y = s ++ t := by
  unfold addElem
  split
  · exact ⟨[], by simp⟩
  · exact ⟨[y], rfl⟩

theorem nodup_addElem {s : List String} (h : s.Nodup) (y : String) :
    (addElem s y).Nodup := by
  unfold addElem
  split
  · exact h
  · simp_all [List.nodup_append]

theorem mem_unionInto {a b : List String} {x : String} :
    x ∈ unionInto a b ↔ x ∈ a ∨ x ∈ b := by
  induction b generalizing a with
  | nil => simp [unionInto]
  | cons y b ih =>
    show x ∈ unionInto (addElem a y) b ↔ _
    rw [ih, mem_addElem]
    simp only [List.mem_cons]
    tauto

theorem unionInto_eq_append (a b : List String) :
    ∃ t, unionInto a b = a ++ t := by
  induction b generalizing a with
  | nil => exact ⟨[], by simp [unionInto]⟩
  | cons y b ih =>
    obtain ⟨t₁, h₁⟩ := addElem_eq_append a y
    obtain ⟨t₂, h₂⟩ := ih (addElem a y)
    exact ⟨t₁ ++ t₂, by simp [unionInto] at h₂ ⊢; rw [h₂, h₁, List.append_assoc]⟩

theorem nodup_unionInto {a : List String} (h : a.Nodup) (b : List String) :
    (unionInto a b).Nodup := by
  induction b generalizing a with
  | nil => exact h
  | cons y b ih => exact ih (nodup_addElem h y)

theorem mem_mkSet {l : List String} {x : String} : x ∈ mkSet l ↔ x ∈ l := by
  have : ∀ (l a : List String), x ∈ l.foldl addElem a ↔ x ∈ a ∨ x ∈ l := by
    intro l
    induction l with
    | nil => simp
    | cons y l ih =>
      intro a
      show x ∈ l.foldl addElem (addElem a y) ↔ _
      rw [ih, mem_addElem]
      simp
      tauto
  rw [mkSet, this]
  simp

theorem nodup_mkSet (l : List String) : (mkSet l).Nodup := by
  have : ∀ (l a : List String), a.Nodup → (l.foldl addElem a).Nodup := by
    intro l
    induction l with
    | nil => exact fun _ h => h
    | cons y l ih => exact fun a h => ih _ (nodup_addElem h y)
  exact this l [] List.nodup_nil

theorem mem_insertKey {ks : List String} {k x : String} :
    x ∈ insertKey ks k ↔ x ∈ ks ∨ x = k := by
  unfold insertKey
  split
  · constructor
    · exact Or.inl
    · rintro (h | rfl) <;> assumption
  · simp [or_comm]

theorem nodup_insertKey {ks : List String} (h : ks.Nodup) (k : String) :
    (insertKey ks k).Nodup := by
  unfold insertKey
  split
  · exact h
  · simp_all [List.nodup_append]

theorem mem_objKeys {ws : List Package} {n : String} :
    n ∈ objKeys ws ↔ n ∈ ws.map Package.name := by
  have : ∀ (ws : List Package) (ks : List String),
      n ∈ ws.foldl (fun ks p => insertKey ks p.name) ks ↔ n ∈ ks ∨ n ∈ ws.map Package.name := by
    intro ws
    induction ws with
    | nil => simp
    | cons p ws ih =>
      intro ks
      show n ∈ ws.foldl _ (insertKey ks p.name) ↔ _
      rw [ih, mem_insertKey]
      simp
      tauto
  rw [objKeys, this]
  simp

theorem innerFold_apply_ne {name y : String} (hne : y ≠ name) :
    ∀ (l : List String) (g : String → List String), innerFold name g l y = g y := by
  intro l
  induction l with
  | nil => exact fun g => rfl
  | cons d l ih =>
    intro g
    show innerFold name (Function.update g name _) l y = g y
    rw [ih, Function.update_noteq hne]

theorem innerFold_eq_append (name : String) :
    ∀ (l : List String) (g : String → List String),
      ∃ t, innerFold name g l name = g name ++ t := by
  intro l
  induction l with
  | nil => exact fun g => ⟨[], by simp [innerFold]⟩
  | cons d l ih =>
    intro g
    obtain ⟨t₂, h₂⟩ := ih (Function.update g name (unionInto (g name) (g d)))
    obtain ⟨t₁, h₁⟩ := unionInto_eq_append (g name) (g d)
    refine ⟨t₁ ++ t₂, ?_⟩
    show innerFold name (Function.update g name _) l name = _
    rw [h₂, Function.update_same, h₁, List.append_assoc]

theorem mem_innerFold {name x : String} :
    ∀ (l : List String) (g : String → List String),
      x ∈ innerFold name g l name ↔ x ∈ g name ∨ ∃ d ∈ l, x ∈ g d := by
  intro l
  induction l with
  | nil => simp [innerFold]
  | cons d l ih =>
    intro g
    show x ∈ innerFold name (Function.update g name (unionInto (g name) (g d))) l name ↔ _
    rw [ih]
    constructor
    · rintro (hx | ⟨e, he, hx⟩)
      · rw [Function.update_same, mem_unionInto] at hx
        rcases hx with hx | hx
        · exact Or.inl hx
        · exact Or.inr ⟨d, List.mem_cons_self d l, hx⟩
      · by_cases hen : e = name
        · subst hen
          rw [Function.update_same, mem_unionInto] at hx
          rcases hx with hx | hx
          · exact Or.inl hx
          · exact Or.inr ⟨d, List.mem_cons_self d l, hx⟩
        · rw [Function.update_noteq hen] at hx
          exact Or.inr ⟨e, List.mem_cons_of_mem d he, hx⟩
    · rintro (hx | ⟨e, he, hx⟩)
      · exact Or.inl (by rw [Function.update_same, mem_unionInto]; exact Or.inl hx)
      · rcases List.mem_cons.mp he with rfl | he
        · exact Or.inl (by rw [Function.update_same, mem_unionInto]; exact Or.inr hx)
        · by_cases hen : e = name
          · subst hen
            exact Or.inl (by rw [Function.update_same, mem_unionInto]; exact Or.inl hx)
          · exact Or.inr ⟨e, he, by rw [Function.update_noteq hen]; exact hx⟩

theorem passStep_apply_ne {g : String → List String} {name y : String} (hne : y ≠ name) :
    passStep g name y = g y :=
  innerFold_apply_ne hne (g name) g

theorem passStep_eq_append (g : String → List String) (name y : String) :
    ∃ t, passStep g name y = g y ++ t := by
  by_cases hne : y = name
  · subst hne
    exact innerFold_eq_append y (g y) g
  · exact ⟨[], by rw [passStep_apply_ne hne]; simp⟩

theorem mem_passStep {g : String → List String} {name y x : String} :
    x ∈ passStep g name y ↔ x ∈ g y ∨ (y = name ∧ ∃ d ∈ g name, x ∈ g d) := by
  by_cases hne : y = name
  · subst hne
    rw [passStep, mem_innerFold]
    tauto
  · rw [passStep_apply_ne hne]
    tauto

theorem foldPass_apply_not_mem {y : String} :
    ∀ (L : List String) (g : String → List String), y ∉ L → (L.foldl passStep g) y = g y := by
  intro L
  induction L with
  | nil => exact fun g _ => rfl
  | cons k L ih =>
    intro g hy
    show (L.foldl passStep (passStep g k)) y = g y
    rw [ih _ (fun h => hy (List.mem_cons_of_mem k h)),
      passStep_apply_ne (fun h : y = k => hy (h ▸ List.mem_cons_self k L))]

theorem foldPass_eq_append :
    ∀ (L : List String) (g : String → List String) (y : String),
      ∃ t, (L.foldl passStep g) y = g y ++ t := by
  intro L
  induction L with
  | nil => exact fun g y => ⟨[], by simp⟩
  | cons k L ih =>
    intro g y
    obtain ⟨t₂, h₂⟩ := ih (passStep g k) y
    obtain ⟨t₁, h₁⟩ := passStep_eq_append g k y
    refine ⟨t₁ ++ t₂, ?_⟩
    show (L.foldl passStep (passStep g k)) y = _
    rw [h₂, h₁, List.append_assoc]

theorem nodup_objKeys (ws : List Package) : (objKeys ws).Nodup := by
  have : ∀ (ws : List Package) (ks : List String), ks.Nodup →
      (ws.foldl (fun ks p => insertKey ks p.name) ks).Nodup := by
    intro ws
    induction ws with
    | nil => exact fun _ h => h
    | cons p ws ih => exact fun ks h => ih _ (nodup_insertKey h p.name)
  exact this ws [] List.nodup_nil

theorem list_sum_le {L : List String} {f f' : String → ℕ} (h : ∀ k ∈ L, f k ≤ f' k) :
    (L.map f).sum ≤ (L.map f').sum := by
  induction L with
  | nil => simp
  | cons k L ih =>
    simp only [List.map_cons, List.sum_cons]
    exact Nat.add_le_add (h k (List.mem_cons_self k L))
      (ih (fun q hq => h q (List.mem_cons_of_mem k hq)))

theorem list_sum_eq_pointwise {L : List String} {f f' : String → ℕ}
    (hle : ∀ k ∈ L, f k ≤ f' k) (hsum : (L.map f').sum = (L.map f).sum) :
    ∀ k ∈ L, f' k = f k := by
  induction L with
  | nil => simp
  | cons k L ih =>
    simp only [List.map_cons, List.sum_cons] at hsum
    have hk := hle k (List.mem_cons_self k L)
    have hrest := list_sum_le (fun q hq => hle q (List.mem_cons_of_mem k hq))
    have hkeq : f' k = f k := by omega
    have hresteq : (L.map f').sum = (L.map f).sum := by omega
    intro q hq
    rcases List.mem_cons.mp hq with rfl | hq
    · exact hkeq
    · exact ih (fun r hr => hle r (List.mem_cons_of_mem k hr)) hresteq q hq

theorem pass_length_le (ws : List Package) (g : String → List String) (y : String) :
    (g y).length ≤ (pass ws g y).length := by
  obtain ⟨t, ht⟩ := foldPass_eq_append (objKeys ws) g y
  rw [pass, ht, List.length_append]
  omega

theorem pass_eq_of_size_eq {ws : List Package} {g : String → List String}
    (h : totalSize ws (pass ws g) = totalSize ws g) : pass ws g = g := by
  have hlen : ∀ k ∈ objKeys ws, (pass ws g k).length = (g k).length :=
    list_sum_eq_pointwise (fun k _ => pass_length_le ws g k) h
  funext y
  by_cases hy : y ∈ objKeys ws
  · obtain ⟨t, ht⟩ := foldPass_eq_append (objKeys ws) g y
    have := hlen y hy
    rw [pass] at *
    rw [ht] at this ⊢
    simp only [List.length_append] at this
    have : t = [] := List.eq_nil_of_length_eq_zero (by omega)
    simp [this]
  · exact foldPass_apply_not_mem (objKeys ws) g hy

theorem pass_size_le (ws : List Package) (g : String → List String) :
    totalSize ws g ≤ totalSize ws (pass ws g) :=
  list_sum_le (fun k _ => pass_length_le ws g k)

theorem passStep_values {g : String → List String} {name : String} {P : String → Prop}
    (h : ∀ a b, b ∈ g a → P b) : ∀ a b, b ∈ passStep g name a → P b := by
  intro a b hb
  rw [mem_passStep] at hb
  rcases hb with hb | ⟨_, d, hd, hb⟩
  · exact h a b hb
  · exact h d b hb

theorem passStep_sound {ws : List Package} {g : String → List String} {name : String}
    (h : ∀ a b, b ∈ g a → Relation.TransGen (depEdge ws) a b) :
    ∀ a b, b ∈ passStep g name a → Relation.TransGen (depEdge ws) a b := by
  intro a b hb
  rw [mem_passStep] at hb
  rcases hb with hb | ⟨rfl, d, hd, hb⟩
  · exact h a b hb
  · exact (h a d hd).trans (h d b hb)

theorem innerFold_nodup {name : String} :
    ∀ (l : List String) (g : String → List String), (∀ a, (g a).Nodup) →
      ∀ a, (innerFold name g l a).Nodup := by
  intro l
  induction l with
  | nil => exact fun g h => h
  | cons d l ih =>
    intro g h
    refine ih _ (fun a => ?_)
    show (Function.update g name (unionInto (g name) (g d)) a).Nodup
    by_cases ha : a = name
    · subst ha
      rw [Function.update_same]
      exact nodup_unionInto (h a) _
    · rw [Function.update_noteq ha]
      exact h a

theorem passStep_nodup {g : String → List String} {name : String}
    (h : ∀ a, (g a).Nodup) : ∀ a, (passStep g name a).Nodup :=
  innerFold_nodup (g name) g h

theorem foldPass_values {P : String → Prop} :
    ∀ (L : List String) (g : String → List String), (∀ a b, b ∈ g a → P b) →
      ∀ a b, b ∈ (L.foldl passStep g) a → P b := by
  intro L
  induction L with
  | nil => exact fun g h => h
  | cons k L ih => exact fun g h => ih (passStep g k) (passStep_values h)

theorem foldPass_sound {ws : List Package} :
    ∀ (L : List String) (g : String → List String),
      (∀ a b, b ∈ g a → Relation.TransGen (depEdge ws) a b) →
      ∀ a b, b ∈ (L.foldl passStep g) a → Relation.TransGen (depEdge ws) a b := by
  intro L
  induction L with
  | nil => exact fun g h => h
  | cons k L ih => exact fun g h => ih (passStep g k) (passStep_sound h)

theorem foldPass_nodup :
    ∀ (L : List String) (g : String → List String), (∀ a, (g a).Nodup) →
      ∀ a, ((L.foldl passStep g) a).Nodup := by
  intro L
  induction L with
  | nil => exact fun g h => h
  | cons k L ih => exact fun g h => ih (passStep g k) (passStep_nodup h)

theorem entry_length_le {ws : List Package} {g : String → List String}
    (hval : ∀ a b, b ∈ g a → b ∈ objKeys ws) (hnd : ∀ a, (g a).Nodup) (k : String) :
    (g k).length ≤ (objKeys ws).length := by
  have h1 : (g k).toFinset.card = (g k).length := List.toFinset_card_of_nodup (hnd k)
  have h2 : (objKeys ws).toFinset.card = (objKeys ws).length :=
    List.toFinset_card_of_nodup (nodup_objKeys ws)
  have h3 : (g k).toFinset ⊆ (objKeys ws).toFinset := by
    intro x hx
    rw [List.mem_toFinset] at hx ⊢
    exact hval k x hx
  have := Finset.card_le_card h3
  omega

theorem totalSize_le_sq {ws : List Package} {g : String → List String}
    (hval : ∀ a b, b ∈ g a → b ∈ objKeys ws) (hnd : ∀ a, (g a).Nodup) :
    totalSize ws g ≤ (objKeys ws).length * (objKeys ws).length := by
  have : ∀ L : List String, (∀ k ∈ L, (g k).length ≤ (objKeys ws).length) →
      (L.map (fun k => (g k).length)).sum ≤ L.length * (objKeys ws).length := by
    intro L
    induction L with
    | nil => simp
    | cons k L ih =>
      intro h
      simp only [List.map_cons, List.sum_cons, List.length_cons, Nat.succ_mul]
      have := ih (fun q hq => h q (List.mem_cons_of_mem k hq))
      have := h k (List.mem_cons_self k L)
      omega
  exact this (objKeys ws) (fun k _ => entry_length_le hval hnd k)

theorem loopFuel_fix {ws : List Package} :
    ∀ (f : ℕ) (g : String → List String),
      (∀ a b, b ∈ g a → b ∈ objKeys ws) → (∀ a, (g a).Nodup) →
      (objKeys ws).length * (objKeys ws).length + 1 ≤ totalSize ws g + f →
      pass ws (loopFuel ws f g) = loopFuel ws f g := by
  intro f
  induction f with
  | zero =>
    intro g hval hnd hb
    exact absurd (totalSize_le_sq hval hnd) (by omega)
  | succ f ih =>
    intro g hval hnd hb
    have hunfold : loopFuel ws (f + 1) g =
        if totalSize ws (pass ws g) = totalSize ws g then pass ws g
        else loopFuel ws f (pass ws g) := rfl
    rw [hunfold]
    by_cases hsz : totalSize ws (pass ws g) = totalSize ws g
    · have heq := pass_eq_of_size_eq hsz
      rw [if_pos hsz, heq, heq]
    · rw [if_neg hsz]
      have hval' : ∀ a b, b ∈ pass ws g a → b ∈ objKeys ws := foldPass_values _ g hval
      have hnd' : ∀ a, (pass ws g a).Nodup := foldPass_nodup _ g hnd
      have hgt : totalSize ws g < totalSize ws (pass ws g) :=
        lt_of_le_of_ne (pass_size_le ws g) (fun h => hsz h.symm)
      exact ih (pass ws g) hval' hnd' (by omega)

theorem loopFuel_unfold (ws : List Package) (f : ℕ) (g : String → List String) :
    loopFuel ws (f + 1) g =
      if totalSize ws (pass ws g) = totalSize ws g then pass ws g
      else loopFuel ws f (pass ws g) := rfl

theorem loopFuel_eq_append (ws : List Package) :
    ∀ (f : ℕ) (g : String → List String) (y : String),
      ∃ t, loopFuel ws f g y = g y ++ t := by
  intro f
  induction f with
  | zero => exact fun g y => ⟨[], by simp [loopFuel]⟩
  | succ f ih =>
    intro g y
    rw [loopFuel_unfold]
    by_cases hsz : totalSize ws (pass ws g) = totalSize ws g
    · rw [if_pos hsz]
      exact foldPass_eq_append (objKeys ws) g y
    · rw [if_neg hsz]
      obtain ⟨t₂, h₂⟩ := ih (pass ws g) y
      obtain ⟨t₁, h₁⟩ := foldPass_eq_append (objKeys ws) g y
      exact ⟨t₁ ++ t₂, by rw [h₂, pass] at *; rw [h₁, List.append_assoc]⟩

theorem loopFuel_values {P : String → Prop} {ws : List Package} :
    ∀ (f : ℕ) (g : String → List String), (∀ a b, b ∈ g a → P b) →
      ∀ a b, b ∈ loopFuel ws f g a → P b := by
  intro f
  induction f with
  | zero => exact fun g h => h
  | succ f ih =>
    intro g h
    rw [loopFuel_unfold]
    by_cases hsz : totalSize ws (pass ws g) = totalSize ws g
    · rw [if_pos hsz]
      exact foldPass_values _ g h
    · rw [if_neg hsz]
      exact ih (pass ws g) (foldPass_values _ g h)

theorem loopFuel_sound {ws : List Package} :
    ∀ (f : ℕ) (g : String → List String),
      (∀ a b, b ∈ g a → Relation.TransGen (depEdge ws) a b) →
      ∀ a b, b ∈ loopFuel ws f g a → Relation.TransGen (depEdge ws) a b := by
  intro f
  induction f with
  | zero => exact fun g h => h
  | succ f ih =>
    intro g h
    rw [loopFuel_unfold]
    by_cases hsz : totalSize ws (pass ws g) = totalSize ws g
    · rw [if_pos hsz]
      exact foldPass_sound _ g h
    · rw [if_neg hsz]
      exact ih (pass ws g) (foldPass_sound _ g h)

theorem loopFuel_nodup {ws : List Package} :
    ∀ (f : ℕ) (g : String → List String), (∀ a, (g a).Nodup) →
      ∀ a, (loopFuel ws f g a).Nodup := by
  intro f
  induction f with
  | zero => exact fun g h => h
  | succ f ih =>
    intro g h
    rw [loopFuel_unfold]
    by_cases hsz : totalSize ws (pass ws g) = totalSize ws g
    · rw [if_pos hsz]
      exact foldPass_nodup _ g h
    · rw [if_neg hsz]
      exact ih (pass ws g) (foldPass_nodup _ g h)

theorem loopFuel_apply_not_mem {ws : List Package} {y : String} (hy : y ∉ objKeys ws) :
    ∀ (f : ℕ) (g : String → List String), loopFuel ws f g y = g y := by
  intro f
  induction f with
  | zero => exact fun g => rfl
  | succ f ih =>
    intro g
    rw [loopFuel_unfold]
    by_cases hsz : totalSize ws (pass ws g) = totalSize ws g
    · rw [if_pos hsz]
      exact foldPass_apply_not_mem (objKeys ws) g hy
    · rw [if_neg hsz, ih (pass ws g)]
      exact foldPass_apply_not_mem (objKeys ws) g hy

theorem initialGraph_values {ws : List Package} :
    ∀ a b, b ∈ initialGraph ws a → b ∈ objKeys ws := by
  intro a b hb
  unfold initialGraph at hb
  split at hb
  · unfold directDeps at hb
    split at hb
    · simp at hb
    · rw [mem_mkSet, List.mem_filter] at hb
      exact of_decide_eq_true hb.2
  · simp at hb

theorem initialGraph_nodup {ws : List Package} : ∀ a, (initialGraph ws a).Nodup := by
  intro a
  unfold initialGraph
  split
  · unfold directDeps
    split
    · exact List.nodup_nil
    · exact nodup_mkSet _
  · exact List.nodup_nil

theorem buildDepGraph_fix (ws : List Package) :
    pass ws (buildDepGraph ws) = buildDepGraph ws :=
  loopFuel_fix (graphFuel ws) (initialGraph ws) initialGraph_values initialGraph_nodup
    (by unfold graphFuel; omega)

theorem buildDepGraph_values {ws : List Package} :
    ∀ a b, b ∈ buildDepGraph ws a → b ∈ objKeys ws :=
  loopFuel_values (graphFuel ws) (initialGraph ws) initialGraph_values

theorem buildDepGraph_nodup {ws : List Package} : ∀ a, (buildDepGraph ws a).Nodup :=
  loopFuel_nodup (graphFuel ws) (initialGraph ws) initialGraph_nodup

theorem buildDepGraph_not_mem {ws : List Package} {a : String} (ha : a ∉ objKeys ws) :
    buildDepGraph ws a = [] := by
  rw [buildDepGraph, loopFuel_apply_not_mem ha, initialGraph, if_neg ha]

theorem mem_initial_buildDepGraph {ws : List Package} {a b : String}
    (h : b ∈ initialGraph ws a) : b ∈ buildDepGraph ws a := by
  obtain ⟨t, ht⟩ := loopFuel_eq_append ws (graphFuel ws) (initialGraph ws) a
  rw [buildDepGraph, ht]
  exact List.mem_append_left t h

theorem fold_fix_each :
    ∀ (L : List String) (g : String → List String), L.foldl passStep g = g →
      ∀ k ∈ L, passStep g k = g := by
  intro L
  induction L with
  | nil => simp
  | cons k L ih =>
    intro g h
    have h' : L.foldl passStep (passStep g k) = g := h
    have hstep : passStep g k = g := by
      funext y
      obtain ⟨t₁, h₁⟩ := passStep_eq_append g k y
      obtain ⟨t₂, h₂⟩ := foldPass_eq_append L (passStep g k) y
      have : g y = g y ++ (t₁ ++ t₂) := by
        conv_lhs => rw [← h', h₂, h₁]
        rw [List.append_assoc]
      have hlen := congrArg List.length this
      simp only [List.length_append] at hlen
      have ht₁ : t₁ = [] := List.eq_nil_of_length_eq_zero (by omega)
      rw [h₁, ht₁, List.append_nil]
    intro q hq
    rcases List.mem_cons.mp hq with rfl | hq
    · exact hstep
    · exact ih g (by rw [hstep] at h'; exact h') q hq

theorem buildDepGraph_closed {ws : List Package} {a : String} (ha : a ∈ objKeys ws) :
    ∀ d ∈ buildDepGraph ws a, ∀ x ∈ buildDepGraph ws d, x ∈ buildDepGraph ws a := by
  intro d hd x hx
  have hstep : passStep (buildDepGraph ws) a = buildDepGraph ws :=
    fold_fix_each (objKeys ws) (buildDepGraph ws) (buildDepGraph_fix ws) a ha
  have : x ∈ passStep (buildDepGraph ws) a a := by
    rw [mem_passStep]
    exact Or.inr ⟨rfl, d, hd, hx⟩
  rwa [hstep] at this

theorem buildDepGraph_sound {ws : List Package} {a b : String}
    (h : b ∈ buildDepGraph ws a) : Relation.TransGen (depEdge ws) a b :=
  loopFuel_sound (graphFuel ws) (initialGraph ws)
    (fun _ _ hb => Relation.TransGen.single hb) a b h

theorem transGen_src_mem {ws : List Package} {a b : String}
    (h : Relation.TransGen (depEdge ws) a b) : a ∈ objKeys ws := by
  induction h with
  | single h =>
    by_contra ha
    rw [depEdge, initialGraph, if_neg ha] at h
    simp at h
  | tail _ _ ih => exact ih

theorem buildDepGraph_complete {ws : List Package} {a b : String}
    (h : Relation.TransGen (depEdge ws) a b) : b ∈ buildDepGraph ws a := by
  induction h with
  | single h => exact mem_initial_buildDepGraph h
  | tail hac hcb ih =>
    exact buildDepGraph_closed (transGen_src_mem hac) _ ih _ (mem_initial_buildDepGraph hcb)

theorem mem_buildDepGraph {ws : List Package} {a b : String} :
    b ∈ buildDepGraph ws a ↔ Relation.TransGen (depEdge ws) a b :=
  ⟨buildDepGraph_sound, buildDepGraph_complete⟩

theorem mem_closureFold {G : String → List String} {x : String} :
    ∀ (L acc : List String),
      x ∈ L.foldl (fun acc p => unionInto acc (G p)) acc ↔ x ∈ acc ∨ ∃ p ∈ L, x ∈ G p := by
  intro L
  induction L with
  | nil => simp
  | cons k L ih =>
    intro acc
    show x ∈ L.foldl _ (unionInto acc (G k)) ↔ _
    rw [ih, mem_unionInto]
    constructor
    · rintro ((hx | hx) | ⟨p, hp, hx⟩)
      · exact Or.inl hx
      · exact Or.inr ⟨k, List.mem_cons_self k L, hx⟩
      · exact Or.inr ⟨p, List.mem_cons_of_mem k hp, hx⟩
    · rintro (hx | ⟨p, hp, hx⟩)
      · exact Or.inl (Or.inl hx)
      · rcases List.mem_cons.mp hp with rfl | hp
        · exact Or.inl (Or.inr hx)
        · exact Or.inr ⟨p, hp, hx⟩

theorem closureFold_eq_append {G : String → List String} :
    ∀ (L acc : List String), ∃ t, L.foldl (fun acc p => unionInto acc (G p)) acc = acc ++ t := by
  intro L
  induction L with
  | nil => exact fun acc => ⟨[], by simp⟩
  | cons k L ih =>
    intro acc
    obtain ⟨t₂, h₂⟩ := ih (unionInto acc (G k))
    obtain ⟨t₁, h₁⟩ := unionInto_eq_append acc (G k)
    refine ⟨t₁ ++ t₂, ?_⟩
    show L.foldl _ (unionInto acc (G k)) = _
    rw [h₂, h₁, List.append_assoc]

theorem closureFold_nodup {G : String → List String} :
    ∀ (L acc : List String), acc.Nodup → (L.foldl (fun acc p => unionInto acc (G p)) acc).Nodup := by
  intro L
  induction L with
  | nil => exact fun _ h => h
  | cons k L ih => exact fun acc h => ih _ (nodup_unionInto h _)

theorem mem_closureStep {G : String → List String} {s : List String} {x : String} :
    x ∈ closureStep G s ↔ x ∈ s ∨ ∃ p ∈ s, x ∈ G p :=
  mem_closureFold s s

theorem closureStep_eq_append (G : String → List String) (s : List String) :
    ∃ t, closureStep G s = s ++ t :=
  closureFold_eq_append s s

theorem closureStep_nodup {G : String → List String} {s : List String} (h : s.Nodup) :
    (closureStep G s).Nodup :=
  closureFold_nodup s s h

theorem closureFuel_unfold (G : String → List String) (f : ℕ) (s : List String) :
    closureFuel G (f + 1) s =
      if (closureStep G s).length = s.length then closureStep G s
      else closureFuel G f (closureStep G s) := rfl

theorem closureFuel_eq_append (G : String → List String) :
    ∀ (f : ℕ) (s : List String), ∃ t, closureFuel G f s = s ++ t := by
  intro f
  induction f with
  | zero => exact fun s => ⟨[], by simp [closureFuel]⟩
  | succ f ih =>
    intro s
    rw [closureFuel_unfold]
    by_cases hl : (closureStep G s).length = s.length
    · rw [if_pos hl]
      exact closureStep_eq_append G s
    · rw [if_neg hl]
      obtain ⟨t₂, h₂⟩ := ih (closureStep G s)
      obtain ⟨t₁, h₁⟩ := closureStep_eq_append G s
      exact ⟨t₁ ++ t₂, by rw [h₂, h₁, List.append_assoc]⟩

theorem closureStep_eq_of_length {G : String → List String} {s : List String}
    (h : (closureStep G s).length = s.length) : closureStep G s = s := by
  obtain ⟨t, ht⟩ := closureStep_eq_append G s
  rw [ht] at h ⊢
  simp only [List.length_append] at h
  have : t = [] := List.eq_nil_of_length_eq_zero (by omega)
  simp [this]

theorem mkSet_length_le (l : List String) : (mkSet l).length ≤ l.length := by
  have : ∀ (l a : List String), (l.foldl addElem a).length ≤ a.length + l.length := by
    intro l
    induction l with
    | nil => simp
    | cons y l ih =>
      intro a
      have h1 := ih (addElem a y)
      have h2 : (addElem a y).length ≤ a.length + 1 := by
        obtain ⟨t, ht⟩ := addElem_eq_append a y
        rcases t with _ | ⟨z, t⟩
        · simp [ht]
        · have : addElem a y = a ∨ addElem a y = a ++ [y] := by
            unfold addElem
            split
            · exact Or.inl rfl
            · exact Or.inr rfl
          rcases this with h | h <;> simp [h]
      show (l.foldl addElem (addElem a y)).length ≤ a.length + (l.length + 1)
      omega
  have := this l []
  simpa [mkSet] using this

theorem closureFuel_fix {G : String → List String} {K : List String}
    (hG : ∀ p x, x ∈ G p → x ∈ K) :
    ∀ (f : ℕ) (s : List String), s.Nodup → (∀ x ∈ s, x ∈ K) →
      K.toFinset.card + 1 ≤ s.length + f →
      closureStep G (closureFuel G f s) = closureFuel G f s := by
  intro f
  induction f with
  | zero =>
    intro s hnd hsub hb
    have h1 : s.toFinset.card = s.length := List.toFinset_card_of_nodup hnd
    have h3 : s.toFinset ⊆ K.toFinset := by
      intro x hx
      rw [List.mem_toFinset] at hx ⊢
      exact hsub x hx
    have := Finset.card_le_card h3
    omega
  | succ f ih =>
    intro s hnd hsub hb
    rw [closureFuel_unfold]
    by_cases hl : (closureStep G s).length = s.length
    · have heq := closureStep_eq_of_length hl
      rw [if_pos hl, heq, heq]
    · rw [if_neg hl]
      have hle : s.length ≤ (closureStep G s).length := by
        obtain ⟨t, ht⟩ := closureStep_eq_append G s
        rw [ht, List.length_append]
        omega
      have hsub' : ∀ x ∈ closureStep G s, x ∈ K := by
        intro x hx
        rcases mem_closureStep.mp hx with hx | ⟨p, _, hx⟩
        · exact hsub x hx
        · exact hG p x hx
      exact ih (closureStep G s) (closureStep_nodup hnd) hsub' (by omega)

theorem dependencyClosure_fix (ws : List Package) (roots : List Package) :
    closureStep (buildDepGraph ws) (dependencyClosure ws roots) = dependencyClosure ws roots := by
  have hG : ∀ p x, x ∈ buildDepGraph ws p → x ∈ rootNames roots ++ objKeys ws := by
    intro p x hx
    exact List.mem_append_right _ (buildDepGraph_values p x hx)
  refine closureFuel_fix hG _ (rootNames roots) (nodup_mkSet _)
    (fun x hx => List.mem_append_left _ hx) ?_
  have h1 : (rootNames roots ++ objKeys ws).toFinset.card ≤ (rootNames roots ++ objKeys ws).length :=
    List.toFinset_card_le _
  have h2 : (rootNames roots).length ≤ roots.length := by
    have := mkSet_length_le (roots.map (fun p => p.name))
    simpa [rootNames] using this
  simp only [List.length_append] at h1
  omega

theorem mem_rootNames {roots : List Package} {r : Package} (hr : r ∈ roots) :
    r.name ∈ rootNames roots := by
  rw [rootNames, mem_mkSet]
  exact List.mem_map_of_mem _ hr

theorem rootNames_sub_closure {ws roots : List Package} {x : String}
    (hx : x ∈ rootNames roots) : x ∈ dependencyClosure ws roots := by
  obtain ⟨t, ht⟩ := closureFuel_eq_append (buildDepGraph ws)
    (roots.length + (objKeys ws).length + 1) (rootNames roots)
  rw [dependencyClosure, ht]
  exact List.mem_append_left t hx

theorem closure_absorb {ws roots : List Package} {p b : String}
    (hp : p ∈ dependencyClosure ws roots) (hb : b ∈ buildDepGraph ws p) :
    b ∈ dependencyClosure ws roots := by
  have : b ∈ closureStep (buildDepGraph ws) (dependencyClosure ws roots) :=
    mem_closureStep.mpr (Or.inr ⟨p, hp, hb⟩)
  rwa [dependencyClosure_fix] at this

theorem name_inj {ws : List Package} (hnd : (ws.map Package.name).Nodup)
    {p q : Package} (hp : p ∈ ws) (hq : q ∈ ws) (h : p.name = q.name) : p = q :=
  List.inj_on_of_nodup_map hnd hp hq h

theorem pkgLookup_some_iff {ws : List Package} (hnd : (ws.map Package.name).Nodup)
    {n : String} {p : Package} : pkgLookup ws n = some p ↔ p ∈ ws ∧ p.name = n := by
  constructor
  · intro h
    have h' : List.find? (fun q => q.name == n) ws.reverse = some p := h
    have h1 : p ∈ ws.reverse := List.mem_of_find?_eq_some h'
    have h2 := List.find?_some h'
    exact ⟨List.mem_reverse.mp h1, eq_of_beq h2⟩
  · rintro ⟨hp, rfl⟩
    have hex : ∃ x ∈ ws.reverse, (x.name == p.name) = true :=
      ⟨p, List.mem_reverse.mpr hp, beq_self_eq_true _⟩
    rw [← List.find?_isSome] at hex
    obtain ⟨q, hq⟩ := Option.isSome_iff_exists.mp hex
    have hq1 : q ∈ ws := List.mem_reverse.mp (List.mem_of_find?_eq_some hq)
    have hq2' := List.find?_some hq
    have hq2 : q.name = p.name := eq_of_beq hq2'
    rw [pkgLookup, hq]
    exact congrArg some (name_inj hnd hq1 hp hq2)

theorem pkgLookup_none_iff {ws : List Package} {n : String} :
    pkgLookup ws n = none ↔ ∀ p ∈ ws, p.name ≠ n := by
  rw [pkgLookup, List.find?_eq_none]
  constructor
  · intro h p hp hn
    exact h p (List.mem_reverse.mpr hp) (by rw [hn]; exact beq_self_eq_true n)
  · intro h p hp hb
    exact h p (List.mem_reverse.mp hp) (eq_of_beq hb)

theorem pkgLookup_perm {ws₁ ws₂ : List Package} (hnd : (ws₁.map Package.name).Nodup)
    (hperm : ws₁.Perm ws₂) (n : String) : pkgLookup ws₁ n = pkgLookup ws₂ n := by
  have hnd₂ : (ws₂.map Package.name).Nodup := ((hperm.map Package.name).nodup_iff).mp hnd
  cases h : pkgLookup ws₁ n with
  | some p =>
    obtain ⟨hp, hn⟩ := (pkgLookup_some_iff hnd).mp h
    exact ((pkgLookup_some_iff hnd₂).mpr ⟨hperm.mem_iff.mp hp, hn⟩).symm
  | none =>
    have := pkgLookup_none_iff.mp h
    exact ((pkgLookup_none_iff.mpr
      (fun p hp => this p (hperm.mem_iff.mpr hp))).symm)

theorem mem_objKeys_perm {ws₁ ws₂ : List Package} (hperm : ws₁.Perm ws₂) (n : String) :
    n ∈ objKeys ws₁ ↔ n ∈ objKeys ws₂ := by
  rw [mem_objKeys, mem_objKeys]
  exact (hperm.map Package.name).mem_iff

theorem initialGraph_perm {ws₁ ws₂ : List Package} (hnd : (ws₁.map Package.name).Nodup)
    (hperm : ws₁.Perm ws₂) : initialGraph ws₁ = initialGraph ws₂ := by
  funext n
  unfold initialGraph
  by_cases hn : n ∈ objKeys ws₁
  · rw [if_pos hn, if_pos ((mem_objKeys_perm hperm n).mp hn)]
    unfold directDeps
    rw [← pkgLookup_perm hnd hperm n]
    cases pkgLookup ws₁ n with
    | none => rfl
    | some p =>
      simp only
      congr 1
      refine List.filter_congr (fun d _ => ?_)
      exact decide_eq_decide.mpr (mem_objKeys_perm hperm d)
  · rw [if_neg hn, if_neg (fun h => hn ((mem_objKeys_perm hperm n).mpr h))]

theorem depEdge_perm {ws₁ ws₂ : List Package} (hnd : (ws₁.map Package.name).Nodup)
    (hperm : ws₁.Perm ws₂) : depEdge ws₁ = depEdge ws₂ := by
  funext a b
  rw [depEdge, depEdge, initialGraph_perm hnd hperm]

theorem batch_status_apply :
    ∀ (b : List String) (st : String → Status) (q : String),
      (b.foldl (fun f p => Function.update f p Status.running) st) q
        = if q ∈ b then Status.running else st q := by
  intro b
  induction b with
  | nil => simp
  | cons p b ih =>
    intro st q
    show (b.foldl _ (Function.update st p Status.running)) q = _
    rw [ih]
    by_cases hqb : q ∈ b
    · rw [if_pos hqb, if_pos (List.mem_cons_of_mem p hqb)]
    · rw [if_neg hqb]
      by_cases hqp : q = p
      · subst hqp
        rw [Function.update_same, if_pos (List.mem_cons_self q b)]
      · rw [Function.update_noteq hqp,
          if_neg (fun h => (List.mem_cons.mp h).elim hqp hqb)]

theorem mem_canExecute {names : List String} {G : String → List String}
    {st : String → Status} {q : String} :
    q ∈ canExecute names G st ↔
      q ∈ names ∧ st q = Status.queued ∧ ∀ d ∈ G q, st d = Status.finished := by
  rw [canExecute, List.mem_filter, decide_eq_true_eq]

theorem startBatch_status (names : List String) (G : String → List String)
    (s : SState) (q : String) :
    (startBatch names G s).status q =
      if q ∈ canExecute names G s.status then Status.running else s.status q :=
  batch_status_apply _ s.status q

theorem startBatch_settled (names : List String) (G : String → List String) (s : SState) :
    (startBatch names G s).settled = s.settled := rfl

theorem startBatch_trace (names : List String) (G : String → List String) (s : SState) :
    (startBatch names G s).trace =
      s.trace ++ (canExecute names G s.status).map Event.start := rfl

theorem append_split {α : Type} {l₁ l₂ t1 t2 : List α} {x : α}
    (h : l₁ ++ l₂ = t1 ++ x :: t2) :
    (∃ t2a, l₁ = t1 ++ x :: t2a) ∨ (∃ t1a, t1 = l₁ ++ t1a ∧ l₂ = t1a ++ x :: t2) := by
  rcases List.append_eq_append_iff.mp h with ⟨a', ha1, ha2⟩ | ⟨c', hc1, hc2⟩
  · exact Or.inr ⟨a', ha1, ha2⟩
  · rcases c' with _ | ⟨e, c''⟩
    · simp only [List.append_nil] at hc1
      exact Or.inr ⟨[], by simp [hc1], by simpa using hc2.symm⟩
    · rw [List.cons_append] at hc2
      injection hc2 with h1 h2
      subst h1
      exact Or.inl ⟨c'', hc1⟩

theorem start_mem_map {b : List String} {q : String} :
    Event.start q ∈ b.map Event.start ↔ q ∈ b := by
  simp

theorem notin_canExecute_of_ne_queued {names : List String} {G : String → List String}
    {st : String → Status} {d : String} (h : st d ≠ Status.queued) :
    d ∉ canExecute names G st :=
  fun hc => h (mem_canExecute.mp hc).2.1

theorem inv_startBatch {names : List String} {G : String → List String}
    {run : String → Bool} {s : SState} (h : Inv names G run s) :
    Inv names G run (startBatch names G s) := by
  refine ⟨?_, ?_, ?_, ?_, ?_, ?_, ?_⟩
  · intro q hq
    rw [startBatch_status,
      if_neg (fun hc => hq (mem_canExecute.mp hc).1)]
    exact h.offList q hq
  · intro q hq d hd
    rw [startBatch_status] at hq
    by_cases hqb : q ∈ canExecute names G s.status
    · have hc := mem_canExecute.mp hqb
      have hdfin : s.status d = Status.finished := hc.2.2 d hd
      rw [startBatch_status,
        if_neg (notin_canExecute_of_ne_queued (by rw [hdfin]; decide))]
      exact hdfin
    · rw [if_neg hqb] at hq
      have hdfin := h.depsDone q hq d hd
      rw [startBatch_status,
        if_neg (notin_canExecute_of_ne_queued (by rw [hdfin]; decide))]
      exact hdfin
  · intro q
    rw [startBatch_trace, startBatch_status, List.mem_append]
    constructor
    · rintro (hin | hin)
      · have hq := (h.startedTrace q).mp hin
        by_cases hqb : q ∈ canExecute names G s.status
        · rw [if_pos hqb]; decide
        · rw [if_neg hqb]; exact hq
      · rw [if_pos (start_mem_map.mp hin)]; decide
    · intro hne
      by_cases hqb : q ∈ canExecute names G s.status
      · exact Or.inr (start_mem_map.mpr hqb)
      · rw [if_neg hqb] at hne
        exact Or.inl ((h.startedTrace q).mpr hne)
  · intro q
    rw [startBatch_trace, startBatch_status, List.mem_append]
    have hnost : Event.finish q ∉ (canExecute names G s.status).map Event.start := by simp
    by_cases hqb : q ∈ canExecute names G s.status
    · rw [if_pos hqb]
      have hqueued := (mem_canExecute.mp hqb).2.1
      constructor
      · rintro (hin | hin)
        · have := (h.finishTrace q).mp hin
          rw [hqueued] at this
          exact Status.noConfusion this
        · exact absurd hin hnost
      · intro hrf
        exact Status.noConfusion hrf
    · rw [if_neg hqb]
      constructor
      · rintro (hin | hin)
        · exact (h.finishTrace q).mp hin
        · exact absurd hin hnost
      · exact fun hf => Or.inl ((h.finishTrace q).mpr hf)
  · intro t1 p t2 heq d hd
    rw [startBatch_trace] at heq
    rcases append_split heq with ⟨t2a, h1⟩ | ⟨t1a, h1, h2⟩
    · exact h.ordered t1 p t2a h1 d hd
    · have hp : Event.start p ∈ (canExecute names G s.status).map Event.start := by
        rw [h2]
        exact List.mem_append_right _ (List.mem_cons_self _ _)
      have hpc := start_mem_map.mp hp
      have hdfin := (mem_canExecute.mp hpc).2.2 d hd
      rw [h1]
      exact List.mem_append_left _ ((h.finishTrace d).mpr hdfin)
  · intro htrue q hq
    rw [startBatch_settled] at htrue
    have hfin := h.resolvedAll htrue q hq
    rw [startBatch_status,
      if_neg (notin_canExecute_of_ne_queued (by rw [hfin]; decide))]
    exact hfin
  · intro q hfin hrun
    rw [startBatch_status] at hfin
    by_cases hqb : q ∈ canExecute names G s.status
    · rw [if_pos hqb] at hfin
      exact Status.noConfusion hfin
    · rw [if_neg hqb] at hfin
      rw [startBatch_settled]
      exact h.failRejected q hfin hrun

theorem inv_init (names : List String) (G : String → List String) (run : String → Bool) :
    Inv names G run (initS names G) := by
  apply inv_startBatch
  refine ⟨?_, ?_, ?_, ?_, ?_, ?_, ?_⟩
  · exact fun q _ => rfl
  · exact fun q hq => absurd rfl hq
  · intro q
    simp
  · intro q
    constructor
    · intro hin
      simp at hin
    · intro hf
      exact Status.noConfusion hf
  · intro t1 p t2 heq
    exact absurd heq (by simp)
  · intro htrue
    exact Option.noConfusion htrue
  · intro q hfin
    exact absurd hfin (fun hf => Status.noConfusion hf)

theorem inv_mid {names : List String} {G : String → List String} {run : String → Bool}
    {s : SState} {p : String} (h : Inv names G run s) (hp : s.status p = Status.running) :
    Inv names G run
      { status := Function.update s.status p Status.finished
        settled := if s.settled = none ∧ run p = false then some false else s.settled
        trace := s.trace ++ [Event.finish p] } := by
  have hpnames : p ∈ names := by
    by_contra hpn
    rw [h.offList p hpn] at hp
    exact Status.noConfusion hp
  refine ⟨?_, ?_, ?_, ?_, ?_, ?_, ?_⟩
  · intro q hq
    show Function.update s.status p Status.finished q = Status.queued
    have hqp : q ≠ p := fun he => hq (he ▸ hpnames)
    rw [Function.update_noteq hqp]
    exact h.offList q hq
  · intro q hq d hd
    show Function.update s.status p Status.finished d = Status.finished
    by_cases hdp : d = p
    · subst hdp
      rw [Function.update_same]
    · rw [Function.update_noteq hdp]
      by_cases hqp : q = p
      · subst hqp
        exact h.depsDone q (by rw [hp]; decide) d hd
      · replace hq : s.status q ≠ Status.queued := by
          rwa [show SState.status _ q = Function.update s.status p Status.finished q from rfl,
            Function.update_noteq hqp] at hq
        exact h.depsDone q hq d hd
  · intro q
    show Event.start q ∈ s.trace ++ [Event.finish p] ↔
      Function.update s.status p Status.finished q ≠ Status.queued
    rw [List.mem_append]
    have hsing : Event.start q ∉ [Event.finish p] := by simp
    by_cases hqp : q = p
    · subst hqp
      rw [Function.update_same]
      constructor
      · intro _
        decide
      · intro _
        exact Or.inl ((h.startedTrace q).mpr (by rw [hp]; decide))
    · rw [Function.update_noteq hqp]
      constructor
      · rintro (hin | hin)
        · exact (h.startedTrace q).mp hin
        · exact absurd hin hsing
      · exact fun hne => Or.inl ((h.startedTrace q).mpr hne)
  · intro q
    show Event.finish q ∈ s.trace ++ [Event.finish p] ↔
      Function.update s.status p Status.finished q = Status.finished
    rw [List.mem_append]
    by_cases hqp : q = p
    · subst hqp
      rw [Function.update_same]
      exact ⟨fun _ => rfl, fun _ => Or.inr (List.mem_singleton_self _)⟩
    · rw [Function.update_noteq hqp]
      constructor
      · rintro (hin | hin)
        · exact (h.finishTrace q).mp hin
        · rw [List.mem_singleton] at hin
          exact absurd hin (by simp [hqp])
      · exact fun hf => Or.inl ((h.finishTrace q).mpr hf)
  · intro t1 q t2 heq d hd
    replace heq : s.trace ++ [Event.finish p] = t1 ++ Event.start q :: t2 := heq
    rcases append_split heq with ⟨t2a, h1⟩ | ⟨t1a, h1, h2⟩
    · exact h.ordered t1 q t2a h1 d hd
    · exfalso
      rcases t1a with _ | ⟨e, t1a⟩
      · rw [List.nil_append] at h2
        injection h2 with h3 _
        exact Event.noConfusion h3
      · rw [List.cons_append] at h2
        injection h2 with _ h4
        exact absurd h4.symm (by simp)
  · intro htrue
    replace htrue : (if s.settled = none ∧ run p = false then some false else s.settled)
        = some true := htrue
    by_cases hcond : s.settled = none ∧ run p = false
    · rw [if_pos hcond] at htrue
      exact absurd htrue (by simp)
    · rw [if_neg hcond] at htrue
      have := h.resolvedAll htrue p hpnames
      rw [hp] at this
      exact absurd this (by decide)
  · intro q hfin hrun
    replace hfin : Function.update s.status p Status.finished q = Status.finished := hfin
    show (if s.settled = none ∧ run p = false then some false else s.settled) = some false
    by_cases hqp : q = p
    · subst hqp
      by_cases hnone : s.settled = none
      · rw [if_pos ⟨hnone, hrun⟩]
      · rw [if_neg (fun hc => hnone hc.1)]
        rcases hv : s.settled with _ | v
        · exact absurd hv hnone
        · cases v with
          | true =>
            have := h.resolvedAll hv q hpnames
            rw [hp] at this
            exact absurd this (by decide)
          | false => rfl
    · rw [Function.update_noteq hqp] at hfin
      have := h.failRejected q hfin hrun
      rw [if_neg (fun hc => by rw [this] at hc; exact Option.noConfusion hc.1)]
      exact this

theorem inv_stepComplete {names : List String} {G : String → List String}
    {run : String → Bool} {s : SState} {p : String}
    (h : Inv names G run s) (hp : s.status p = Status.running) :
    Inv names G run (stepComplete names G run p s) := by
  have hmid := inv_mid h hp
  simp only [stepComplete]
  split
  next hall =>
    refine ⟨hmid.offList, hmid.depsDone, hmid.startedTrace, hmid.finishTrace,
      hmid.ordered, ?_, ?_⟩
    · intro _ q hq
      have := List.all_eq_true.mp hall q hq
      exact of_decide_eq_true this
    · intro q hfin hrun
      have hrej := hmid.failRejected q hfin hrun
      replace hrej : (if s.settled = none ∧ run p = false then some false else s.settled)
          = some false := hrej
      show (if (if s.settled = none ∧ run p = false then some false else s.settled) = none
        then some true
        else if s.settled = none ∧ run p = false then some false else s.settled) = some false
      rw [hrej]
      simp
  next =>
    exact inv_startBatch hmid

theorem reach_inv {names : List String} {G : String → List String} {run : String → Bool}
    {s : SState} (h : Reach names G run s) : Inv names G run s := by
  induction h with
  | refl => exact inv_init names G run
  | tail _ hstep ih =>
    obtain ⟨p, hp, rfl⟩ := hstep
    exact inv_stepComplete ih hp

theorem cycle_startBatch {names : List String} {G : String → List String}
    {s : SState} {A B : String} (hAB : B ∈ G A) (hBA : A ∈ G B)
    (hA : s.status A = Status.queued) (hB : s.status B = Status.queued) :
    (startBatch names G s).status A = Status.queued ∧
      (startBatch names G s).status B = Status.queued := by
  have hnA : A ∉ canExecute names G s.status := fun hc => by
    have := (mem_canExecute.mp hc).2.2 B hAB
    rw [hB] at this
    exact Status.noConfusion this
  have hnB : B ∉ canExecute names G s.status := fun hc => by
    have := (mem_canExecute.mp hc).2.2 A hBA
    rw [hA] at this
    exact Status.noConfusion this
  constructor
  · rw [startBatch_status, if_neg hnA]
    exact hA
  · rw [startBatch_status, if_neg hnB]
    exact hB

theorem cycle_queued {names : List String} {G : String → List String} {run : String → Bool}
    {A B : String} {s : SState} (hAB : B ∈ G A) (hBA : A ∈ G B)
    (h : Reach names G run s) :
    s.status A = Status.queued ∧ s.status B = Status.queued := by
  induction h with
  | refl => exact cycle_startBatch hAB hBA rfl rfl
  | tail _ hstep ih =>
    obtain ⟨p, hp, rfl⟩ := hstep
    obtain ⟨ihA, ihB⟩ := ih
    have hpA : p ≠ A := fun he => by
      rw [he, ihA] at hp
      exact Status.noConfusion hp
    have hpB : p ≠ B := fun he => by
      rw [he, ihB] at hp
      exact Status.noConfusion hp
    have hmidA : ∀ f : String → Status, f A = Status.queued →
        Function.update f p Status.finished A = Status.queued := fun f hf => by
      rw [Function.update_noteq (fun he => hpA he.symm)]
      exact hf
    have hmidB : ∀ f : String → Status, f B = Status.queued →
        Function.update f p Status.finished B = Status.queued := fun f hf => by
      rw [Function.update_noteq (fun he => hpB he.symm)]
      exact hf
    simp only [stepComplete]
    split
    · exact ⟨hmidA _ ihA, hmidB _ ihB⟩
    · exact cycle_startBatch hAB hBA (hmidA _ ihA) (hmidB _ ihB)

/-- C1: in ordered mode, for every pair of workspace packages (A, B) where A
transitively depends on B, B's task has reached state `finished` before A's
task is ever started (in every reachable trace, every `start A` event is
preceded by a `finish B` event); and `runPackages` starts a queued package
only when every name in its dependency-graph entry has status `finished`
(the `canExecute` guard). -/
theorem claim_C1 (ws : List Package) (run : String → Bool) (only : Option (List Package))
    (s : SState) (h : ReachW ws run only s) :
    (∀ t1 A t2, s.trace = t1 ++ Event.start A :: t2 →
      ∀ B, Relation.TransGen (depEdge ws) A B → Event.finish B ∈ t1) ∧
    (∀ (st : String → Status) (q : String),
      q ∈ canExecute (runPkgsList ws only) (buildDepGraph ws) st →
      st q = Status.queued ∧ ∀ d ∈ buildDepGraph ws q, st d = Status.finished) := by
  constructor
  · intro t1 A t2 heq B hT
    exact (reach_inv h).ordered t1 A t2 heq B (mem_buildDepGraph.mpr hT)
  · intro st q hq
    exact ⟨(mem_canExecute.mp hq).2.1, (mem_canExecute.mp hq).2.2⟩

/-- Witness for C1 on the concrete workspace `wsLin` (`A` depends on `B`):
in the reachable state `sLin1` whose trace is `[start B, finish B, start A]`,
the `finish B` event precedes the `start A` event. -/
theorem claim_C1_witness :
    Event.finish "B" ∈ [Event.start "B", Event.finish "B"] := by
  have h := (claim_C1 wsLin runAllOk none sLin1
      (Relation.ReflTransGen.single ⟨"B", by decide, rfl⟩)).1
  exact h [Event.start "B", Event.finish "B"] "A" [] (by decide) "B"
    (Relation.TransGen.single (by decide))

/-- C2 (amended): in ordered mode, if any package's task reports failure,
the `runPackages` promise is rejected, so the overall result is failure;
in every reachable state in which some package is `finished` and its task
result was `false`, the promise is settled with `some false`. -/
theorem claim_C2 (ws : List Package) (run : String → Bool) (only : Option (List Package))
    (s : SState) (h : ReachW ws run only s) :
    ∀ p, s.status p = Status.finished → run p = false → s.settled = some false :=
  fun p hf hr => (reach_inv h).failRejected p hf hr

/-- Counterexample for C2 as stated: on `wsFail` (`B` depends on `A`, `A`'s
task fails), in the reachable state `sFail1` the failure has been observed
(the promise is rejected, `settled = some false`), yet package `B` — whose
only dependency `A` failed — has been started (`status B = running`, a
`start B` event is in the trace).  So further packages are started after a
failure, refuting the claim's "no further packages are started" and
"no package whose dependency failed is ever started". -/
theorem claim_C2_counterexample :
    ReachW wsFail runFailA none sFail1 ∧ runFailA "A" = false ∧
      sFail1.settled = some false ∧ sFail1.status "B" = Status.running ∧
      Event.start "B" ∈ sFail1.trace ∧ "A" ∈ buildDepGraph wsFail "B" :=
  ⟨Relation.ReflTransGen.single ⟨"A", by decide, rfl⟩,
    by decide, by decide, by decide, by decide, by decide⟩

/-- Witness for C2 on the concrete workspace `wsFail`: in the reachable
state `sFail1`, package `A` is finished with a failed task, and the promise
is settled with failure. -/
theorem claim_C2_witness : sFail1.settled = some false :=
  claim_C2 wsFail runFailA none sFail1
    (Relation.ReflTransGen.single ⟨"A", by decide, rfl⟩) "A" (by decide) (by decide)

/-- C3 (amended): when the per-package phase settles, `Workspace.run`
executes the workspace-level run function exactly once whenever the command
has one — regardless of whether the per-package execution succeeded — and
never executes it when the command has none; the overall result is the
conjunction of the workspace-level result and the per-package result. -/
theorem claim_C3 (hasRun pkgSuccess w : Bool) :
    (wsRunModel hasRun pkgSuccess (some w)).2 = 1 ∧
    (wsRunModel hasRun pkgSuccess none).2 = 0 ∧
    (wsRunModel true pkgSuccess (some w)).1 = (w && pkgSuccess) := by
  cases hasRun <;> cases pkgSuccess <;> cases w <;> exact ⟨rfl, rfl, rfl⟩

/-- Counterexample for C3 as stated: with a command whose per-package phase
failed (`pkgSuccess = false`), the workspace-level run function is still
executed (once), because the source runs `cmd.runWorkspace` unconditionally
whenever it is present; the claim said it must not be executed after a
per-package failure. -/
theorem claim_C3_counterexample :
    (wsRunModel true false (some true)).1 = false ∧
      (wsRunModel true false (some true)).2 = 1 := by
  exact ⟨rfl, rfl⟩

/-- C4: the built dependency graph is transitively closed: if B is in
graph[A] and C is in graph[B], then C is in graph[A]. -/
theorem claim_C4 (ws : List Package) (a b c : String)
    (hb : b ∈ buildDepGraph ws a) (hc : c ∈ buildDepGraph ws b) :
    c ∈ buildDepGraph ws a :=
  mem_buildDepGraph.mpr ((mem_buildDepGraph.mp hb).trans (mem_buildDepGraph.mp hc))

/-- Witness for C4 on the chain workspace `A → B → C`: `C ∈ graph[A]`. -/
theorem claim_C4_witness : "C" ∈ buildDepGraph wsChain "A" :=
  claim_C4 wsChain "A" "B" "C" (by decide) (by decide)

/-- C5: `buildDepGraph` is order-independent and idempotent: for workspace
package lists with the (spec-mandated) unique names, permuting the input
package list yields the same key-to-set association, and running the
builder twice on the same input yields identical output (the builder is a
pure function of its input). -/
theorem claim_C5 (ws₁ ws₂ : List Package) (hnd : (ws₁.map Package.name).Nodup)
    (hperm : ws₁.Perm ws₂) :
    (∀ a b, b ∈ buildDepGraph ws₁ a ↔ b ∈ buildDepGraph ws₂ a) ∧
      buildDepGraph ws₁ = buildDepGraph ws₁ := by
  refine ⟨fun a b => ?_, rfl⟩
  rw [mem_buildDepGraph, mem_buildDepGraph, depEdge_perm hnd hperm]

/-- Witness for C5: `wsLin` and its reversal `wsLinR` produce the same
membership in the entry of `A`. -/
theorem claim_C5_witness :
    "B" ∈ buildDepGraph wsLin "A" ↔ "B" ∈ buildDepGraph wsLinR "A" :=
  (claim_C5 wsLin wsLinR (by decide) (by decide)).1 "A" "B"

/-- C6: `dependencyClosure(roots)` contains the name of every root and
every package any root transitively depends on, and this closure is exactly
the package set `runPackages` operates over. -/
theorem claim_C6 (ws roots : List Package) (only : Option (List Package)) :
    (∀ r ∈ roots, r.name ∈ dependencyClosure ws roots) ∧
    (∀ r ∈ roots, ∀ b, Relation.TransGen (depEdge ws) r.name b →
      b ∈ dependencyClosure ws roots) ∧
    runPkgsList ws only = dependencyClosure ws (only.getD ws) := by
  refine ⟨fun r hr => rootNames_sub_closure (mem_rootNames hr), fun r hr b hT => ?_, rfl⟩
  exact closure_absorb (rootNames_sub_closure (mem_rootNames hr)) (mem_buildDepGraph.mpr hT)

/-- Witness for C6 on the chain workspace with root `{A}`: the transitive
dependency `C` is in the closure. -/
theorem claim_C6_witness :
    "C" ∈ dependencyClosure wsChain [⟨"A", ["B"], [], []⟩] := by
  refine (claim_C6 wsChain [⟨"A", ["B"], [], []⟩] none).2.1 ⟨"A", ["B"], [], []⟩
    (by decide) "C" ?_
  exact Relation.TransGen.trans
    (Relation.TransGen.single (show depEdge wsChain "A" "B" by decide))
    (Relation.TransGen.single (show depEdge wsChain "B" "C" by decide))

/-- C7: if selected packages A and B form a true mutual dependency cycle
(each is in the other's dependency-graph entry), then in ordered mode A
stays `queued` in every reachable state, never becomes eligible
(`canExecute` never contains it), and the `runPackages` promise is never
resolved with success. -/
theorem claim_C7 (ws : List Package) (run : String → Bool) (only : Option (List Package))
    (A B : String) (s : SState) (hAB : B ∈ buildDepGraph ws A)
    (hBA : A ∈ buildDepGraph ws B) (hA : A ∈ runPkgsList ws only)
    (h : ReachW ws run only s) :
    s.status A = Status.queued ∧
      A ∉ canExecute (runPkgsList ws only) (buildDepGraph ws) s.status ∧
      s.settled ≠ some true := by
  obtain ⟨hqA, hqB⟩ := cycle_queued hAB hBA h
  refine ⟨hqA, ?_, ?_⟩
  · intro hc
    have := (mem_canExecute.mp hc).2.2 B hAB
    rw [hqB] at this
    exact Status.noConfusion this
  · intro htrue
    have := (reach_inv h).resolvedAll htrue A hA
    rw [hqA] at this
    exact Status.noConfusion this

/-- Witness for C7 on the two-package cycle `wsCyc` in its initial scheduler
state: `A` is queued, ineligible, and the promise is unresolved. -/
theorem claim_C7_witness :
    (initS (runPkgsList wsCyc none) (buildDepGraph wsCyc)).status "A" = Status.queued ∧
      "A" ∉ canExecute (runPkgsList wsCyc none) (buildDepGraph wsCyc)
        (initS (runPkgsList wsCyc none) (buildDepGraph wsCyc)).status ∧
      (initS (runPkgsList wsCyc none) (buildDepGraph wsCyc)).settled ≠ some true :=
  claim_C7 wsCyc runAllOk none "A" "B" _ (by decide) (by decide) (by decide)
    Relation.ReflTransGen.refl

/-- C8: in unordered/parallel mode, `runPackages` maps the per-package run
function over the dependency closure and returns the logical AND of the
individual results: the result is `true` exactly when every package of the
closure succeeds. -/
theorem claim_C8 (ws : List Package) (run : String → Bool) (only : Option (List Package)) :
    runPackagesPar ws run only = true ↔
      ∀ p ∈ dependencyClosure ws (only.getD ws), run p = true := by
  rw [runPackagesPar, List.all_eq_true]
  constructor
  · intro h p hp
    exact h (run p) (List.mem_map_of_mem run hp)
  · intro h x hx
    obtain ⟨p, hp, rfl⟩ := List.mem_map.mp hx
    exact h p hp

/-- Witness for C8 on the spec's `(true, false)` scenario: two independent
packages with results `A ↦ true, B ↦ false` yield overall `false`. -/
theorem claim_C8_witness : runPackagesPar wsPar runParRes none = false := by
  have h := claim_C8 wsPar runParRes none
  cases hb : runPackagesPar wsPar runParRes none
  · rfl
  · exact absurd (h.mp hb)
      (by decide :
        ¬ ∀ p ∈ dependencyClosure wsPar ((none : Option (List Package)).getD wsPar),
          runParRes p = true)

/-- C9: the keys of the built dependency graph are exactly the workspace
package names (the mapping is total on them — a package with no internal
dependencies has an entry, it is just empty), every name in any entry is a
workspace package name, and non-workspace names have no entry. -/
theorem claim_C9 (ws : List Package) (a : String) :
    (a ∈ objKeys ws ↔ a ∈ ws.map Package.name) ∧
    (∀ b, b ∈ buildDepGraph ws a → b ∈ objKeys ws) ∧
    (a ∉ objKeys ws → buildDepGraph ws a = []) :=
  ⟨mem_objKeys, fun b hb => buildDepGraph_values a b hb, fun ha => buildDepGraph_not_mem ha⟩

/-- Witness for C9 on `wsExt`: the dependency-free workspace package `B` is
a graph key, while the external dependency name `ext` has an empty entry. -/
theorem claim_C9_witness :
    "B" ∈ objKeys wsExt ∧ buildDepGraph wsExt "ext" = [] :=
  ⟨(claim_C9 wsExt "B").1.mpr (by decide), (claim_C9 wsExt "ext").2.2 (by decide)⟩

/-- C10: the fixpoint iteration of `buildDepGraph` terminates on every
finite input — the computed graph is a fixpoint of a full pass (the loop's
"no growth" exit condition is reached) — and on a dependency cycle it
converges with every cycle member's entry containing every other member. -/
theorem claim_C10 (ws : List Package) :
    pass ws (buildDepGraph ws) = buildDepGraph ws ∧
    (∀ a b, Relation.TransGen (depEdge ws) a b → Relation.TransGen (depEdge ws) b a →
      b ∈ buildDepGraph ws a ∧ a ∈ buildDepGraph ws b) :=
  ⟨buildDepGraph_fix ws, fun _ _ hab hba =>
    ⟨buildDepGraph_complete hab, buildDepGraph_complete hba⟩⟩

/-- Witness for C10 on the two-package cycle: both members contain each
other in the converged graph. -/
theorem claim_C10_witness :
    "B" ∈ buildDepGraph wsCyc "A" ∧ "A" ∈ buildDepGraph wsCyc "B" :=
  (claim_C10 wsCyc).2 "A" "B" (Relation.TransGen.single (by decide))
    (Relation.TransGen.single (by decide))

end Depot
